import Mathlib

/-!
Verification of the hierarchical training-item model of the
micro-learning-framework repository.

The development shallowly embeds the tree-model core of the source:

* `ItemData` models the flat `TrainingItem` record
  (src/app/core/models: interface `ITrainingItem`, class `TrainingItem`).
  JavaScript numbers are modelled as rationals, `Date` values as rational
  timestamps passed in explicitly (`now`), optional fields as `Option`.
* `Tree` models an in-memory tree node (a record together with its
  populated `children` array).
* Tree assembly (`buildTrainingTree` from
  src/app/core/services/training.service.ts) is embedded over item
  *indices* into the input list: the JavaScript code mutates shared item
  objects through an id-keyed `Map`, and the index of an item in the
  input collection is the embedding of its object identity.  A `Map`
  keyed by `id` retains the *last* insertion for a duplicated id, which
  `resolveLast` reproduces.  The recursion of the source terminates only
  on acyclic inputs; the embedding uses `items.length` as fuel, which is
  shown to be sufficient on acyclic inputs (`depth_lt_length`).
-/

namespace MicroLearning

/-- Enumeration `TrainingStatus` from training-item.model. -/
inductive TrainingStatus where
  | not_started
  | in_progress
  | completed
  | paused
  | archived
deriving DecidableEq, Repr

/-- Enumeration `SkillType` from training-item.model. -/
inductive SkillType where
  | hard_skill
  | soft_skill
deriving DecidableEq, Repr

/-- The fields of a `TrainingItem` record that the core tree logic reads
or writes.  `id`, `parent_id` are opaque strings; numeric fields are
rationals (JavaScript numbers); timestamps are rationals. -/
structure ItemData where
  id : String
  parent_id : Option String := none
  order_index : ℚ := 0
  progress_percentage : ℚ := 0
  status : TrainingStatus := .not_started
  estimated_duration_minutes : ℚ := 30
  skill_type : SkillType := .hard_skill
  level : ℚ := 0
  completed_at : Option ℚ := none
  last_practiced_at : Option ℚ := none
  created_at : ℚ := 0
  updated_at : ℚ := 0
deriving DecidableEq, Repr

instance : Inhabited ItemData := ⟨{ id := "" }⟩

/-- A tree node: an item record together with its populated `children`
list.  Being an inductive type, every `Tree` value is acyclic. -/
inductive Tree (α : Type) where
  | node (data : α) (children : List (Tree α))
deriving Repr

/-- The record stored at the root of a tree node. -/
def Tree.data {α : Type} : Tree α → α
  | .node d _ => d

/-- The children list of a tree node. -/
def Tree.children {α : Type} : Tree α → List (Tree α)
  | .node _ cs => cs

/-- Structure-preserving map over a tree. -/
def Tree.map {α β : Type} (f : α → β) : Tree α → Tree β
  | .node d cs => .node (f d) (cs.attach.map (fun c => Tree.map f c.1))
decreasing_by
  have h := List.sizeOf_lt_of_mem c.2
  simp only [Tree.node.sizeOf_spec]
  omega


/-- `flattenTree` (training.service.ts, lines 266-280) restricted to a
single tree: the node itself, then the flattening of each child in
order (pre-order traversal). -/
def flattenTree {α : Type} : Tree α → List α
  | .node d cs => d :: (cs.attach.map (fun c => flattenTree c.1)).flatten
decreasing_by
  have h := List.sizeOf_lt_of_mem c.2
  simp only [Tree.node.sizeOf_spec]
  omega


/-- `flattenTree` (training.service.ts, lines 266-280): pre-order
flattening of a forest. -/
def flattenForest {α : Type} (ts : List (Tree α)) : List α :=
  (ts.map flattenTree).flatten

/-! ## TrainingItem operations (team-comment.model.ts / training.service.ts) -/

/-- Input record of the `TrainingItem` constructor: every field of
`Partial<ITrainingItem>` read by the constructor may be absent. -/
structure ItemDataInput where
  id : Option String := none
  parent_id : Option String := none
  order_index : Option ℚ := none
  progress_percentage : Option ℚ := none
  status : Option TrainingStatus := none
  estimated_duration_minutes : Option ℚ := none
  skill_type : Option SkillType := none
  level : Option ℚ := none
  completed_at : Option ℚ := none
  last_practiced_at : Option ℚ := none
deriving Repr

/-- The `TrainingItem` constructor (team-comment.model.ts, lines
372-394).  JavaScript defaulting with `||` sends every falsy value to
the default: for the numeric fields the relevant falsy value is `0`
(`0 || 30` is `30`), for `id` it is the empty string.  `freshId` stands
for the value `generateId()` would produce, `now` for `new Date()`. -/
def TrainingItem_new (freshId : String) (now : ℚ) (data : ItemDataInput) : ItemData :=
  { id := match data.id with
      | none => freshId
      | some s => if s = "" then freshId else s
    parent_id := data.parent_id
    order_index := match data.order_index with
      | none => 0
      | some v => if v = 0 then 0 else v
    progress_percentage := match data.progress_percentage with
      | none => 0
      | some v => if v = 0 then 0 else v
    status := data.status.getD .not_started
    estimated_duration_minutes := match data.estimated_duration_minutes with
      | none => 30
      | some v => if v = 0 then 30 else v
    skill_type := data.skill_type.getD .hard_skill
    level := match data.level with
      | none => 0
      | some v => if v = 0 then 0 else v
    completed_at := data.completed_at
    last_practiced_at := data.last_practiced_at
    created_at := now
    updated_at := now }

/-- `TrainingItem.isCompleted` (team-comment.model.ts, lines 400-402). -/
def isCompleted (d : ItemData) : Bool :=
  decide (d.status = TrainingStatus.completed ∨ d.progress_percentage ≥ 100)

/-- `TrainingItem.updateProgress` (team-comment.model.ts, lines
408-419): clamp the percentage into [0,100], stamp
`last_practiced_at`/`updated_at`, then adjust the status exactly as the
source does (completion only when not already completed; `in_progress`
only from `not_started`). -/
def TrainingItem_updateProgress (item : ItemData) (percentage : ℚ) (now : ℚ) : ItemData :=
  let it1 : ItemData :=
    { item with
      progress_percentage := max 0 (min 100 percentage)
      last_practiced_at := some now
      updated_at := now }
  if percentage ≥ 100 ∧ it1.status ≠ .completed then
    { it1 with status := .completed, completed_at := some now }
  else if percentage > 0 ∧ it1.status = .not_started then
    { it1 with status := .in_progress }
  else it1

/-- `TrainingService.updateProgress` (training.service.ts, lines
139-155), as its effect on the stored record: the `updates` partial
built there overwrites the listed fields of the row.  Unlike the model
method it does not inspect the current status: any percentage in
(0,100) forces `in_progress`, and a percentage of at least 100 always
overwrites `completed_at`. -/
def service_updateProgress (item : ItemData) (progressPercentage : ℚ) (now : ℚ) : ItemData :=
  let it1 : ItemData :=
    { item with
      progress_percentage := max 0 (min 100 progressPercentage)
      last_practiced_at := some now
      updated_at := now }
  if progressPercentage ≥ 100 then
    { it1 with status := .completed, completed_at := some now }
  else if progressPercentage > 0 then
    { it1 with status := .in_progress }
  else it1

/-- `TrainingService.moveTrainingItem` (training.service.ts, lines
203-215), as its effect on the stored record of the moved item: it
unconditionally overwrites `parent_id`, `order_index` and `updated_at`
— no validation, and no other field (in particular not `level`). -/
def service_moveTrainingItem (item : ItemData) (newParentId : Option String)
    (newOrderIndex : ℚ) (now : ℚ) : ItemData :=
  { item with
    parent_id := newParentId
    order_index := newOrderIndex
    updated_at := now }

/-- `TrainingItem.getTotalEstimatedTime` (team-comment.model.ts, lines
439-445): own minutes plus the recursive total of every child. -/
def getTotalEstimatedTime : Tree ItemData → ℚ
  | .node d cs => d.estimated_duration_minutes
      + (cs.attach.map (fun c => getTotalEstimatedTime c.1)).sum
decreasing_by
  have h := List.sizeOf_lt_of_mem c.2
  simp only [Tree.node.sizeOf_spec]
  omega


/-- `TrainingItem.getOverallProgress` (team-comment.model.ts, lines
447-459): a leaf reports its own percentage; otherwise the unweighted
mean of the node's own percentage and each child's recursive overall
progress (`totalWeight = children.length + 1`). -/
def getOverallProgress : Tree ItemData → ℚ
  | .node d cs =>
    if cs.isEmpty then d.progress_percentage
    else (d.progress_percentage + (cs.attach.map (fun c => getOverallProgress c.1)).sum)
      / (cs.length + 1)
decreasing_by
  have h := List.sizeOf_lt_of_mem c.2
  simp only [Tree.node.sizeOf_spec]
  omega


/-- Result record of `TrainingService.getUserStats` (training.service.ts,
lines 218-264). -/
structure UserStats where
  totalItems : ℕ
  completedItems : ℕ
  inProgressItems : ℕ
  totalEstimatedHours : ℚ
  hardSkillsCount : ℕ
  softSkillsCount : ℕ
  completionRate : ℚ
deriving Repr, DecidableEq

/-- `TrainingService.getUserStats` (training.service.ts, lines 218-264)
applied to an already-built forest: flatten, then count and sum as the
source does.  In particular `completionRate` is
`(completed / total) * 100` guarded by `total > 0`. -/
def getUserStats (forest : List (Tree ItemData)) : UserStats :=
  let flatItems := flattenForest forest
  let completedItems := flatItems.filter (fun it => isCompleted it)
  let inProgressItems := flatItems.filter (fun it => decide (it.status = .in_progress))
  let hardSkills := flatItems.filter (fun it => decide (it.skill_type = .hard_skill))
  let softSkills := flatItems.filter (fun it => decide (it.skill_type = .soft_skill))
  { totalItems := flatItems.length
    completedItems := completedItems.length
    inProgressItems := inProgressItems.length
    totalEstimatedHours := (flatItems.map (fun it => it.estimated_duration_minutes / 60)).sum
    hardSkillsCount := hardSkills.length
    softSkillsCount := softSkills.length
    completionRate :=
      if flatItems.length > 0 then ((completedItems.length : ℚ) / flatItems.length) * 100
      else 0 }

/-! ## Tree assembly (`buildTrainingTree`, training.service.ts lines 167-201)

The JavaScript builds an id-keyed `Map` of the items (last write wins
for duplicated ids), appends every item whose `parent_id` resolves in
the map to that map entry's `children`, collects the items with no
`parent_id` as roots — an item with a non-resolving `parent_id` is
appended nowhere — and finally sorts every sibling list (the root list
and, recursively, every `children` list) by `order_index`.  Items are
identified by their index in the input list. -/

/-- The index the id-keyed `Map` resolves `pid` to: the *last* index in
`items` whose record carries that id (later `Map.set` calls overwrite
earlier ones). -/
def resolveLast (items : List ItemData) (pid : String) : Option ℕ :=
  (List.range items.length).reverse.find? (fun k => decide ((items.getD k default).id = pid))

/-- The index of the parent that item `j` gets attached to: its
`parent_id`, resolved through the map; `none` when `j` has no
`parent_id` or the reference does not resolve. -/
def parentIdx (items : List ItemData) (j : ℕ) : Option ℕ :=
  ((items.getD j default).parent_id).bind (resolveLast items)

/-- The indices appended to the `children` list of item `i`, in input
order. -/
def childIdxs (items : List ItemData) (i : ℕ) : List ℕ :=
  (List.range items.length).filter (fun j => decide (parentIdx items j = some i))

/-- The indices collected into `rootItems`, in input order: exactly the
items with no `parent_id` at all. -/
def rootIdxs (items : List ItemData) : List ℕ :=
  (List.range items.length).filter (fun j => (items.getD j default).parent_id.isNone)

/-- One node of the (unsorted) tree the second `forEach` pass builds,
with `fuel` bounding the recursion depth; `items.length` fuel is enough
on every acyclic input (`depth_lt_length`), where the embedding agrees
with the source's unbounded recursion. -/
def buildNode (items : List ItemData) : ℕ → ℕ → Tree ℕ
  | 0, i => .node i []
  | fuel + 1, i => .node i ((childIdxs items i).map (buildNode items fuel))

/-- The unsorted forest: one tree per root index. -/
def rawForest (items : List ItemData) : List (Tree ℕ) :=
  (rootIdxs items).map (buildNode items items.length)

/-- The sort key of an index tree: the `order_index` of its root item. -/
def treeOrder (items : List ItemData) : Tree ℕ → ℚ
  | .node i _ => (items.getD i default).order_index

/-- The comparator `(a, b) => a.order_index - b.order_index` of
`sortItems`, as the total preorder it realises. -/
def treeLe (items : List ItemData) (a b : Tree ℕ) : Bool :=
  decide (treeOrder items a ≤ treeOrder items b)

/-- Comparator of `sortItems` on item indices. -/
def idxLe (items : List ItemData) (a b : ℕ) : Bool :=
  decide ((items.getD a default).order_index ≤ (items.getD b default).order_index)

/-- `sortItems` (training.service.ts, lines 190-197) applied to one
tree: stable-sort the `children` by `order_index` and recurse into each
child.  (JavaScript `Array.prototype.sort` is stable; sorting the
siblings and recursing into the children commute, since the sort key of
a child is not changed by sorting inside it.) -/
def sortTree (items : List ItemData) : Tree ℕ → Tree ℕ
  | .node i cs =>
    .node i ((cs.attach.map (fun c => sortTree items c.1)).mergeSort (treeLe items))
decreasing_by
  have h := List.sizeOf_lt_of_mem c.2
  simp only [Tree.node.sizeOf_spec]
  omega

/-- `sortItems` applied to a sibling list (the root list or a
`children` list). -/
def sortForest (items : List ItemData) (ts : List (Tree ℕ)) : List (Tree ℕ) :=
  (ts.map (sortTree items)).mergeSort (treeLe items)


/-- `buildTrainingTree` at the level of item indices: build the raw
forest, then sort every sibling list recursively. -/
def buildTreeIdx (items : List ItemData) : List (Tree ℕ) :=
  sortForest items (rawForest items)

/-- `buildTrainingTree` (training.service.ts, lines 167-201): the
returned forest of item records, obtained from the index forest by
looking every index back up in the input collection. -/
def buildTrainingTree (items : List ItemData) : List (Tree ItemData) :=
  (buildTreeIdx items).map (Tree.map (fun i => items.getD i default))

/-- `childIdxs` after the `sortItems` pass: the children of node `i` in
the returned forest, as indices, sorted by `order_index`. -/
def sortedChildIdxs (items : List ItemData) (i : ℕ) : List ℕ :=
  (childIdxs items i).mergeSort (idxLe items)

/-- `rootIdxs` after the `sortItems` pass. -/
def sortedRootIdxs (items : List ItemData) : List ℕ :=
  (rootIdxs items).mergeSort (idxLe items)

/-- `buildNode` with every sibling list already sorted; `buildTreeIdx`
is shown to factor through it (`buildTreeIdx_eq`). -/
def buildNodeS (items : List ItemData) : ℕ → ℕ → Tree ℕ
  | 0, i => .node i []
  | fuel + 1, i => .node i ((sortedChildIdxs items i).map (buildNodeS items fuel))

/-! ## Ancestor chains and acyclicity -/

/-- Iterate `parentIdx` `k` times from `j`; `none` once the walk leaves
the forest (reaches an item with unresolvable or absent parent). -/
def ancestorIter (items : List ItemData) : ℕ → ℕ → Option ℕ
  | 0, j => some j
  | k + 1, j =>
    match parentIdx items j with
    | none => none
    | some i => ancestorIter items k i

/-- The input collection is acyclic: from every item, the parent walk
terminates within `items.length` steps.  (A cycle would make the walk
run forever; conversely a terminating walk of a functional relation on
`items.length` nodes needs at most `items.length` steps.)  This is the
precondition under which the recursions of the source terminate. -/
def Acyclic (items : List ItemData) : Prop :=
  ∀ j < items.length, ancestorIter items items.length j = none

/-- Every `parent_id` that is present refers to the id of some item of
the collection (no dangling parent references). -/
def closedParentsB (items : List ItemData) : Bool :=
  items.all (fun it =>
    match it.parent_id with
    | none => true
    | some p => items.any (fun it2 => it2.id == p))

/-- Propositional form of `closedParentsB`. -/
def ClosedParents (items : List ItemData) : Prop :=
  closedParentsB items = true

/-- Length of the parent chain from `j`, computed with fuel `k`. -/
def chainLen (items : List ItemData) : ℕ → ℕ → ℕ
  | 0, _ => 0
  | k + 1, j =>
    match parentIdx items j with
    | none => 0
    | some i => chainLen items k i + 1

/-- Depth of item `j` in the forest: the length of its parent chain. -/
def depth (items : List ItemData) (j : ℕ) : ℕ :=
  chainLen items items.length j

/-- `i` is an ancestor of `j` (or `j` itself): the parent walk from `j`
reaches `i`. -/
def isAnc (items : List ItemData) (i j : ℕ) : Prop :=
  ∃ k, ancestorIter items k j = some i

/-! ## Learning-tree component (learning-tree.ts) -/

/-- The `while` walk of `isDescendant` (learning-tree.ts, lines
318-325), with fuel: starting from `cur` (the parent pointer of the
node under test), search the ancestor chain for `anc`.  The `TreeNode`
parent pointers built by `buildTreeStructure` resolve through the same
last-wins id map as the service, so `parentIdx` is their embedding. -/
def ancestorWalk (items : List ItemData) : ℕ → Option ℕ → ℕ → Bool
  | 0, _, _ => false
  | _ + 1, none, _ => false
  | k + 1, some cur, anc =>
    decide (cur = anc) || ancestorWalk items k (parentIdx items cur) anc

/-- `isDescendant(node, ancestor)` (learning-tree.ts, lines 318-325):
whether `ancestor` occurs strictly above `node` in the tree. -/
def isDescendant (items : List ItemData) (node ancestor : ℕ) : Bool :=
  ancestorWalk items items.length (parentIdx items node) ancestor

/-- The guard of `onDrop` (learning-tree.ts, lines 289-295): the drop
proceeds to the service call only when the dragged node is distinct
from the target and the target is not a descendant of the dragged node;
otherwise `onDrop` returns silently, without calling the service and
without raising anything. -/
def onDropProceeds (items : List ItemData) (dragged target : ℕ) : Bool :=
  !(decide (dragged = target)) && !(isDescendant items target dragged)

/-- The recursive post-condition of `sortItems`: every sibling list of
the tree (the `children` list of every node, at every depth) is sorted
ascending by `order_index`. -/
inductive ChildrenSorted : Tree ItemData → Prop where
  | node (d : ItemData) (cs : List (Tree ItemData)) :
      (∀ c ∈ cs, ChildrenSorted c) →
      List.Pairwise (fun a b => a.data.order_index ≤ b.data.order_index) cs →
      ChildrenSorted (.node d cs)

instance (items : List ItemData) : Decidable (Acyclic items) :=
  inferInstanceAs (Decidable (∀ j < items.length, ancestorIter items items.length j = none))

instance (items : List ItemData) : Decidable (ClosedParents items) :=
  inferInstanceAs (Decidable (closedParentsB items = true))

/-! ## Concrete fixtures used by counterexamples and witnesses -/

/-- An item whose `parent_id` refers to an id carried by no item. -/
def dangItem : ItemData := { id := "a", parent_id := some "missing" }

/-- Root of the witness collection (deliberately listed out of order,
with shuffled `order_index` values). -/
def tRoot : ItemData := { id := "r", order_index := 5 }

/-- Child of `tRoot` with the larger `order_index`. -/
def tA : ItemData := { id := "a", parent_id := some "r", order_index := 2 }

/-- Child of `tRoot` with the smaller `order_index`. -/
def tB : ItemData := { id := "b", parent_id := some "r", order_index := 1 }

/-- Child of `tA`. -/
def tC : ItemData := { id := "c", parent_id := some "a", order_index := 0 }

/-- A small well-formed collection, in scrambled input order. -/
def exTree : List ItemData := [tA, tRoot, tC, tB]

/-- A completed item at 100 percent. -/
def doneItem : ItemData :=
  { id := "done", status := .completed, progress_percentage := 100, completed_at := some 1 }

/-- A fresh item (status `not_started`). -/
def freshItem : ItemData := { id := "fresh" }

/-- Root item of the move fixtures. -/
def rootP : ItemData := { id := "rp" }

/-- Child of `rootP`. -/
def childQ : ItemData := { id := "cq", parent_id := some "rp" }

/-- The item moved in the C8 scenario: it sits at level 1 under parent
`"p"` and has a child `"g"` at level 2 in the surrounding collection. -/
def movedC8 : ItemData := { id := "c", parent_id := some "p", level := 1 }

/-- A forest of two leaves, one completed, for the statistics claims. -/
def ex9 : List (Tree ItemData) :=
  [Tree.node doneItem [], Tree.node { id := "todo" } []]


/-! ## Basic equations for the tree recursions -/

@[simp] theorem Tree.map_node {α β : Type} (f : α → β) (d : α) (cs : List (Tree α)) :
    Tree.map f (.node d cs) = .node (f d) (cs.map (Tree.map f)) := by
  rw [Tree.map]
  simp [List.attach_map_val]
@[simp] theorem flattenTree_node {α : Type} (d : α) (cs : List (Tree α)) :
    flattenTree (.node d cs) = d :: (cs.map flattenTree).flatten := by
  rw [flattenTree]
  simp [List.attach_map_val]
@[simp] theorem getTotalEstimatedTime_node (d : ItemData) (cs : List (Tree ItemData)) :
    getTotalEstimatedTime (.node d cs)
      = d.estimated_duration_minutes + (cs.map getTotalEstimatedTime).sum := by
  rw [getTotalEstimatedTime]
  simp [List.attach_map_val]
@[simp] theorem getOverallProgress_node (d : ItemData) (cs : List (Tree ItemData)) :
    getOverallProgress (.node d cs)
      = if cs.isEmpty then d.progress_percentage
        else (d.progress_percentage + (cs.map getOverallProgress).sum) / (cs.length + 1) := by
  rw [getOverallProgress]
  simp [List.attach_map_val]
@[simp] theorem sortTree_node (items : List ItemData) (i : ℕ) (cs : List (Tree ℕ)) :
    sortTree items (.node i cs) = .node i (sortForest items cs) := by
  rw [sortTree]
  simp [List.attach_map_val, sortForest]

/-! ## Resolver and attachment lemmas -/

theorem resolveLast_lt {items : List ItemData} {pid : String} {x : ℕ}
    (h : resolveLast items pid = some x) : x < items.length := by
  have hm := List.mem_of_find?_eq_some h
  rw [List.mem_reverse] at hm
  exact List.mem_range.mp hm

theorem resolveLast_id {items : List ItemData} {pid : String} {x : ℕ}
    (h : resolveLast items pid = some x) : (items.getD x default).id = pid := by
  have hp := List.find?_some h
  exact of_decide_eq_true hp

theorem resolveLast_isSome {items : List ItemData} {pid : String}
    (h : ∃ it ∈ items, it.id = pid) : ∃ x, resolveLast items pid = some x := by
  rw [← Option.isSome_iff_exists]
  rw [resolveLast, List.find?_isSome]
  obtain ⟨it, hit, hid⟩ := h
  obtain ⟨k, hk, hget⟩ := List.mem_iff_getElem.mp hit
  refine ⟨k, ?_, ?_⟩
  · rw [List.mem_reverse]
    exact List.mem_range.mpr hk
  · rw [List.getD_eq_getElem _ _ hk, hget]
    exact decide_eq_true hid

theorem parentIdx_lt {items : List ItemData} {j i : ℕ}
    (h : parentIdx items j = some i) : i < items.length := by
  rw [parentIdx, Option.bind_eq_some] at h
  obtain ⟨p, _, hr⟩ := h
  exact resolveLast_lt hr

theorem parentIdx_of_ge {items : List ItemData} {j : ℕ}
    (h : items.length ≤ j) : parentIdx items j = none := by
  rw [parentIdx, List.getD_eq_default _ _ h]
  rfl

theorem parentIdx_of_field_none {items : List ItemData} {j : ℕ}
    (h : (items.getD j default).parent_id = none) : parentIdx items j = none := by
  rw [parentIdx, h]
  rfl

theorem parentIdx_isSome_of_closed {items : List ItemData} (hC : ClosedParents items)
    {j : ℕ} {p : String} (hj : j < items.length)
    (hp : (items.getD j default).parent_id = some p) :
    ∃ i, parentIdx items j = some i := by
  rw [ClosedParents, closedParentsB, List.all_eq_true] at hC
  have hmem : items.getD j default ∈ items := by
    rw [List.getD_eq_getElem _ _ hj]
    exact List.getElem_mem hj
  have h2 := hC _ hmem
  rw [hp] at h2
  simp only [List.any_eq_true] at h2
  obtain ⟨it2, hit2, hbeq⟩ := h2
  have hid : it2.id = p := by simpa using hbeq
  obtain ⟨x, hx⟩ := resolveLast_isSome ⟨it2, hit2, hid⟩
  refine ⟨x, ?_⟩
  rw [parentIdx, hp]
  exact hx

theorem field_none_of_parentIdx_none {items : List ItemData} (hC : ClosedParents items)
    {j : ℕ} (hj : j < items.length) (h : parentIdx items j = none) :
    (items.getD j default).parent_id = none := by
  cases hp : (items.getD j default).parent_id with
  | none => rfl
  | some p =>
    obtain ⟨i, hi⟩ := parentIdx_isSome_of_closed hC hj hp
    rw [hi] at h
    cases h

theorem mem_childIdxs {items : List ItemData} {i j : ℕ} :
    j ∈ childIdxs items i ↔ j < items.length ∧ parentIdx items j = some i := by
  rw [childIdxs, List.mem_filter, List.mem_range]
  simp

theorem nodup_childIdxs (items : List ItemData) (i : ℕ) : (childIdxs items i).Nodup :=
  (List.nodup_range _).filter _

theorem mem_rootIdxs {items : List ItemData} {j : ℕ} :
    j ∈ rootIdxs items ↔ j < items.length ∧ (items.getD j default).parent_id = none := by
  rw [rootIdxs, List.mem_filter, List.mem_range, Option.isNone_iff_eq_none]

theorem nodup_rootIdxs (items : List ItemData) : (rootIdxs items).Nodup :=
  (List.nodup_range _).filter _

theorem mem_sortedChildIdxs {items : List ItemData} {i j : ℕ} :
    j ∈ sortedChildIdxs items i ↔ j < items.length ∧ parentIdx items j = some i := by
  rw [sortedChildIdxs, List.mem_mergeSort]
  exact mem_childIdxs

theorem nodup_sortedChildIdxs (items : List ItemData) (i : ℕ) :
    (sortedChildIdxs items i).Nodup :=
  ((List.mergeSort_perm (childIdxs items i) (idxLe items)).symm).nodup (nodup_childIdxs items i)

theorem mem_sortedRootIdxs {items : List ItemData} {j : ℕ} :
    j ∈ sortedRootIdxs items ↔ j < items.length ∧ (items.getD j default).parent_id = none := by
  rw [sortedRootIdxs, List.mem_mergeSort]
  exact mem_rootIdxs

theorem nodup_sortedRootIdxs (items : List ItemData) : (sortedRootIdxs items).Nodup :=
  ((List.mergeSort_perm (rootIdxs items) (idxLe items)).symm).nodup (nodup_rootIdxs items)

/-! ## Ancestor-walk lemmas -/

@[simp] theorem ancestorIter_zero (items : List ItemData) (j : ℕ) :
    ancestorIter items 0 j = some j := rfl

theorem ancestorIter_succ_none {items : List ItemData} {j : ℕ} (k : ℕ)
    (h : parentIdx items j = none) : ancestorIter items (k + 1) j = none := by
  rw [ancestorIter, h]

theorem ancestorIter_succ_some {items : List ItemData} {j i : ℕ} (k : ℕ)
    (h : parentIdx items j = some i) :
    ancestorIter items (k + 1) j = ancestorIter items k i := by
  rw [ancestorIter, h]

theorem ancestorIter_add {items : List ItemData} {a : ℕ} (b : ℕ) {j c : ℕ}
    (h : ancestorIter items a j = some c) :
    ancestorIter items (a + b) j = ancestorIter items b c := by
  induction a generalizing j with
  | zero =>
    have : j = c := by simpa using h
    subst this
    simp
  | succ a ih =>
    cases hp : parentIdx items j with
    | none => rw [ancestorIter_succ_none a hp] at h; cases h
    | some p =>
      rw [ancestorIter_succ_some a hp] at h
      rw [show a + 1 + b = (a + b) + 1 by omega, ancestorIter_succ_some (a + b) hp]
      exact ih h

theorem isAnc_refl (items : List ItemData) (j : ℕ) : isAnc items j j := ⟨0, rfl⟩

theorem isAnc_trans {items : List ItemData} {i c j : ℕ}
    (h1 : isAnc items c j) (h2 : isAnc items i c) : isAnc items i j := by
  obtain ⟨k1, h1⟩ := h1
  obtain ⟨k2, h2⟩ := h2
  exact ⟨k1 + k2, by rw [ancestorIter_add k2 h1]; exact h2⟩

theorem isAnc_parent {items : List ItemData} {i j : ℕ}
    (h : parentIdx items j = some i) : isAnc items i j :=
  ⟨1, by rw [ancestorIter_succ_some 0 h]; rfl⟩

theorem ancestorIter_some_lt {items : List ItemData} {k j i : ℕ}
    (h : ancestorIter items k j = some i) : i = j ∨ i < items.length := by
  induction k generalizing j with
  | zero => left; symm; simpa using h
  | succ k ih =>
    cases hp : parentIdx items j with
    | none => rw [ancestorIter_succ_none k hp] at h; cases h
    | some p =>
      rw [ancestorIter_succ_some k hp] at h
      rcases ih h with rfl | hlt
      · right; exact parentIdx_lt hp
      · right; exact hlt

theorem isAnc_lt {items : List ItemData} {i j : ℕ}
    (h : isAnc items i j) (hj : j < items.length) : i < items.length := by
  obtain ⟨k, hk⟩ := h
  rcases ancestorIter_some_lt hk with rfl | hlt
  · exact hj
  · exact hlt

theorem ancestorIter_last_step {items : List ItemData} {t j i : ℕ}
    (h : ancestorIter items (t + 1) j = some i) :
    ∃ c, ancestorIter items t j = some c ∧ parentIdx items c = some i := by
  induction t generalizing j with
  | zero =>
    cases hp : parentIdx items j with
    | none => rw [ancestorIter_succ_none 0 hp] at h; cases h
    | some p =>
      rw [ancestorIter_succ_some 0 hp] at h
      have : p = i := by simpa using h
      subst this
      exact ⟨j, rfl, hp⟩
  | succ t ih =>
    cases hp : parentIdx items j with
    | none => rw [ancestorIter_succ_none (t + 1) hp] at h; cases h
    | some p =>
      rw [ancestorIter_succ_some (t + 1) hp] at h
      obtain ⟨c, hc, hpc⟩ := ih h
      exact ⟨c, by rw [ancestorIter_succ_some t hp]; exact hc, hpc⟩

theorem isAnc_cases {items : List ItemData} {i j : ℕ} (h : isAnc items i j) :
    i = j ∨ ∃ c, isAnc items c j ∧ parentIdx items c = some i := by
  obtain ⟨k, hk⟩ := h
  cases k with
  | zero => left; symm; simpa using hk
  | succ t =>
    right
    obtain ⟨c, hc, hpc⟩ := ancestorIter_last_step hk
    exact ⟨c, ⟨t, hc⟩, hpc⟩

theorem root_ancestor_exists {items : List ItemData} {m j : ℕ}
    (h : ancestorIter items m j = none) :
    ∃ r, isAnc items r j ∧ parentIdx items r = none := by
  induction m generalizing j with
  | zero => cases h
  | succ m ih =>
    cases hp : parentIdx items j with
    | none => exact ⟨j, isAnc_refl items j, hp⟩
    | some p =>
      rw [ancestorIter_succ_some m hp] at h
      obtain ⟨r, hr, hrn⟩ := ih h
      exact ⟨r, isAnc_trans (isAnc_parent hp) hr, hrn⟩

theorem isAnc_comparable {items : List ItemData} {a b j : ℕ}
    (h1 : isAnc items a j) (h2 : isAnc items b j) :
    isAnc items a b ∨ isAnc items b a := by
  obtain ⟨k1, hk1⟩ := h1
  obtain ⟨k2, hk2⟩ := h2
  rcases le_total k1 k2 with h | h
  · right
    refine ⟨k2 - k1, ?_⟩
    have hadd := ancestorIter_add (k2 - k1) hk1
    rw [show k1 + (k2 - k1) = k2 by omega] at hadd
    rw [← hadd]
    exact hk2
  · left
    refine ⟨k1 - k2, ?_⟩
    have hadd := ancestorIter_add (k1 - k2) hk2
    rw [show k2 + (k1 - k2) = k1 by omega] at hadd
    rw [← hadd]
    exact hk1

/-! ## Chain length and depth -/

@[simp] theorem chainLen_zero (items : List ItemData) (j : ℕ) :
    chainLen items 0 j = 0 := rfl

theorem chainLen_succ_none {items : List ItemData} {j : ℕ} (k : ℕ)
    (h : parentIdx items j = none) : chainLen items (k + 1) j = 0 := by
  rw [chainLen, h]

theorem chainLen_succ_some {items : List ItemData} {j i : ℕ} (k : ℕ)
    (h : parentIdx items j = some i) :
    chainLen items (k + 1) j = chainLen items k i + 1 := by
  rw [chainLen, h]

theorem chainLen_stab {items : List ItemData} :
    ∀ {k j : ℕ}, ancestorIter items k j = none →
      (∀ m, k ≤ m → chainLen items m j = chainLen items k j) ∧ chainLen items k j < k := by
  intro k
  induction k with
  | zero => intro j h; cases h
  | succ k ih =>
    intro j h
    cases hp : parentIdx items j with
    | none =>
      refine ⟨fun m hm => ?_, by rw [chainLen_succ_none k hp]; omega⟩
      obtain ⟨m1, rfl⟩ : ∃ m1, m = m1 + 1 := ⟨m - 1, by omega⟩
      rw [chainLen_succ_none m1 hp, chainLen_succ_none k hp]
    | some p =>
      rw [ancestorIter_succ_some k hp] at h
      obtain ⟨hstab, hlt⟩ := ih h
      refine ⟨fun m hm => ?_, by rw [chainLen_succ_some k hp]; omega⟩
      obtain ⟨m1, rfl⟩ : ∃ m1, m = m1 + 1 := ⟨m - 1, by omega⟩
      rw [chainLen_succ_some m1 hp, chainLen_succ_some k hp, hstab m1 (by omega)]

theorem depth_lt_length {items : List ItemData} (hA : Acyclic items) {j : ℕ}
    (hj : j < items.length) : depth items j < items.length :=
  (chainLen_stab (hA j hj)).2

theorem depth_root {items : List ItemData} {r : ℕ} (h : parentIdx items r = none) :
    depth items r = 0 := by
  rw [depth]
  cases hn : items.length with
  | zero => rfl
  | succ t => rw [chainLen_succ_none t h]

theorem depth_parent {items : List ItemData} (hA : Acyclic items) {j i : ℕ}
    (hj : j < items.length) (hp : parentIdx items j = some i) :
    depth items j = depth items i + 1 := by
  have hiter := hA j hj
  obtain ⟨t, ht⟩ : ∃ t, items.length = t + 1 := ⟨items.length - 1, by omega⟩
  rw [ht] at hiter
  rw [ancestorIter_succ_some t hp] at hiter
  rw [depth, depth, ht, chainLen_succ_some t hp, (chainLen_stab hiter).1 (t + 1) (by omega)]

theorem depth_iter {items : List ItemData} (hA : Acyclic items) :
    ∀ {k j a : ℕ}, j < items.length → ancestorIter items k j = some a →
      depth items j = depth items a + k := by
  intro k
  induction k with
  | zero =>
    intro j a hj h
    have : j = a := by simpa using h
    subst this
    rfl
  | succ k ih =>
    intro j a hj h
    cases hp : parentIdx items j with
    | none => rw [ancestorIter_succ_none k hp] at h; cases h
    | some p =>
      rw [ancestorIter_succ_some k hp] at h
      rw [depth_parent hA hj hp, ih (parentIdx_lt hp) h]
      omega

theorem isAnc_eq_of_depth {items : List ItemData} (hA : Acyclic items) {a b j : ℕ}
    (hj : j < items.length) (h1 : isAnc items a j) (h2 : isAnc items b j)
    (hd : depth items a = depth items b) : a = b := by
  obtain ⟨k1, hk1⟩ := h1
  obtain ⟨k2, hk2⟩ := h2
  have e1 := depth_iter hA hj hk1
  have e2 := depth_iter hA hj hk2
  have : k1 = k2 := by omega
  subst this
  rw [hk1] at hk2
  exact Option.some_inj.mp hk2

/-! ## Fusion of building and sorting -/

@[simp] theorem buildNodeS_zero (items : List ItemData) (i : ℕ) :
    buildNodeS items 0 i = .node i [] := rfl

theorem buildNodeS_succ (items : List ItemData) (fuel i : ℕ) :
    buildNodeS items (fuel + 1) i
      = .node i ((sortedChildIdxs items i).map (buildNodeS items fuel)) := rfl

theorem treeOrder_buildNodeS (items : List ItemData) (fuel a : ℕ) :
    treeOrder items (buildNodeS items fuel a) = (items.getD a default).order_index := by
  cases fuel <;> rfl

theorem treeLe_buildNodeS (items : List ItemData) (fuel : ℕ) (a b : ℕ) :
    idxLe items a b = treeLe items (buildNodeS items fuel a) (buildNodeS items fuel b) := by
  simp [treeLe, idxLe, treeOrder_buildNodeS]

theorem sortTree_buildNode (items : List ItemData) :
    ∀ fuel i, sortTree items (buildNode items fuel i) = buildNodeS items fuel i := by
  intro fuel
  induction fuel with
  | zero =>
    intro i
    show sortTree items (.node i []) = _
    rw [sortTree_node, sortForest]
    simp
  | succ fuel ih =>
    intro i
    show sortTree items (.node i ((childIdxs items i).map (buildNode items fuel))) = _
    rw [sortTree_node, sortForest, List.map_map]
    have hmap : (childIdxs items i).map (sortTree items ∘ buildNode items fuel)
        = (childIdxs items i).map (buildNodeS items fuel) :=
      List.map_congr_left (fun c _ => ih c)
    rw [hmap,
      ← List.map_mergeSort (fun a _ b _ => treeLe_buildNodeS items fuel a b)]
    rfl

theorem buildTreeIdx_eq (items : List ItemData) :
    buildTreeIdx items = (sortedRootIdxs items).map (buildNodeS items items.length) := by
  rw [buildTreeIdx, sortForest, rawForest, List.map_map]
  have hmap : (rootIdxs items).map (sortTree items ∘ buildNode items items.length)
      = (rootIdxs items).map (buildNodeS items items.length) :=
    List.map_congr_left (fun c _ => sortTree_buildNode items items.length c)
  rw [hmap,
    ← List.map_mergeSort (fun a _ b _ => treeLe_buildNodeS items items.length a b)]
  rfl

/-! ## Counting nodes of the built forest -/

/-- Structural induction principle for `Tree` with the nested list
unfolded into a membership hypothesis. -/
theorem tree_ind {α : Type} {P : Tree α → Prop}
    (h : ∀ d cs, (∀ c ∈ cs, P c) → P (.node d cs)) : ∀ t, P t := by
  have hk : ∀ (k : ℕ) (t : Tree α), sizeOf t ≤ k → P t := by
    intro k
    induction k with
    | zero =>
      intro t ht
      cases t with
      | node d cs =>
        rw [Tree.node.sizeOf_spec] at ht
        omega
    | succ k ih =>
      intro t ht
      cases t with
      | node d cs =>
        refine h d cs (fun c hc => ih c ?_)
        have hlt := List.sizeOf_lt_of_mem hc
        rw [Tree.node.sizeOf_spec] at ht
        omega
  exact fun t => hk (sizeOf t) t le_rfl

theorem flattenTree_buildNodeS_head (items : List ItemData) (fuel i : ℕ) :
    ∃ rest, flattenTree (buildNodeS items fuel i) = i :: rest := by
  cases fuel with
  | zero => exact ⟨[], by simp⟩
  | succ fuel => exact ⟨_, by rw [buildNodeS_succ, flattenTree_node]⟩

theorem sum_map_ite_zero {α : Type} {P : α → Prop} [DecidablePred P] (l : List α)
    (h : ∀ b ∈ l, ¬ P b) :
    (l.map (fun c => if P c then (1 : ℕ) else 0)).sum = 0 := by
  induction l with
  | nil => rfl
  | cons a l ih =>
    rw [List.map_cons, List.sum_cons, if_neg (h a (List.mem_cons_self a l)),
      ih (fun b hb => h b (List.mem_cons_of_mem a hb))]

theorem sum_map_ite_one {α : Type} {P : α → Prop} [DecidablePred P] :
    ∀ {l : List α}, l.Nodup → ∀ {a : α}, a ∈ l → P a → (∀ b ∈ l, P b → b = a) →
      (l.map (fun c => if P c then (1 : ℕ) else 0)).sum = 1 := by
  intro l
  induction l with
  | nil => intro _ a ha; cases ha
  | cons x l ih =>
    intro hnd a ha hP huniq
    rcases List.mem_cons.mp ha with rfl | ha2
    · rw [List.map_cons, List.sum_cons, if_pos hP, sum_map_ite_zero]
      intro b hb hPb
      have hba := huniq b (List.mem_cons_of_mem a hb) hPb
      subst hba
      exact absurd hb (List.nodup_cons.mp hnd).1
    · have hx : ¬ P x := by
        intro hPx
        have hxa := huniq x (List.mem_cons_self x l) hPx
        subst hxa
        exact (List.nodup_cons.mp hnd).1 ha2
      rw [List.map_cons, List.sum_cons, if_neg hx,
        ih (List.nodup_cons.mp hnd).2 ha2 hP
          (fun b hb hPb => huniq b (List.mem_cons_of_mem x hb) hPb)]

/-- Each item index appears in the flattening of the subtree rooted at
`i` exactly once when `i` is one of its ancestors (and it is a real
index), and not at all otherwise. -/
theorem count_flattenTree_buildNodeS {items : List ItemData} (hA : Acyclic items) :
    ∀ fuel i, i < items.length → items.length ≤ fuel + depth items i →
      ∀ j, ((isAnc items i j ∧ j < items.length) →
              (flattenTree (buildNodeS items fuel i)).count j = 1) ∧
           (¬ (isAnc items i j ∧ j < items.length) →
              (flattenTree (buildNodeS items fuel i)).count j = 0) := by
  classical
  intro fuel
  induction fuel with
  | zero =>
    intro i hi hfuel
    have := depth_lt_length hA hi
    omega
  | succ fuel ih =>
    intro i hi hfuel j
    have hcount : (flattenTree (buildNodeS items (fuel + 1) i)).count j
        = ((sortedChildIdxs items i).map
            (fun c => if isAnc items c j ∧ j < items.length then (1 : ℕ) else 0)).sum
          + if i = j then 1 else 0 := by
      rw [buildNodeS_succ, flattenTree_node, List.count_cons, List.count_flatten,
        List.map_map, List.map_map]
      congr 1
      · congr 1
        apply List.map_congr_left
        intro c hc
        obtain ⟨hcn, hcp⟩ := mem_sortedChildIdxs.mp hc
        have hdc : depth items c = depth items i + 1 := depth_parent hA hcn hcp
        have hinv : items.length ≤ fuel + depth items c := by omega
        by_cases hP : isAnc items c j ∧ j < items.length
        · rw [if_pos hP]
          exact (ih c hcn hinv j).1 hP
        · rw [if_neg hP]
          exact (ih c hcn hinv j).2 hP
      · simp [beq_iff_eq]
    constructor
    · rintro ⟨hanc, hjn⟩
      rw [hcount]
      by_cases hij : i = j
      · subst hij
        rw [if_pos rfl, sum_map_ite_zero]
        intro c hc hPc
        obtain ⟨hcn, hcp⟩ := mem_sortedChildIdxs.mp hc
        have hdc : depth items c = depth items i + 1 := depth_parent hA hcn hcp
        obtain ⟨k, hk⟩ := hPc.1
        have := depth_iter hA hjn hk
        omega
      · rw [if_neg hij]
        rcases isAnc_cases hanc with rfl | ⟨c, hcj, hcp⟩
        · exact absurd rfl hij
        · have hcn : c < items.length := isAnc_lt hcj hjn
          have hcmem : c ∈ sortedChildIdxs items i := mem_sortedChildIdxs.mpr ⟨hcn, hcp⟩
          rw [sum_map_ite_one (nodup_sortedChildIdxs items i) hcmem ⟨hcj, hjn⟩]
          intro b hb hPb
          obtain ⟨hbn, hbp⟩ := mem_sortedChildIdxs.mp hb
          refine isAnc_eq_of_depth hA hjn hPb.1 hcj ?_
          rw [depth_parent hA hbn hbp, depth_parent hA hcn hcp]
    · intro hn
      rw [hcount]
      have hij : i ≠ j := by
        rintro rfl
        exact hn ⟨isAnc_refl items i, hi⟩
      have hz : ∀ b ∈ sortedChildIdxs items i,
          ¬ (isAnc items b j ∧ j < items.length) := by
        intro c hc hPc
        obtain ⟨hcn, hcp⟩ := mem_sortedChildIdxs.mp hc
        exact hn ⟨isAnc_trans hPc.1 (isAnc_parent hcp), hPc.2⟩
      rw [if_neg hij, sum_map_ite_zero _ hz]

/-- Membership form of the count lemma. -/
theorem mem_flattenTree_buildNodeS {items : List ItemData} (hA : Acyclic items)
    {fuel i : ℕ} (hi : i < items.length) (hfuel : items.length ≤ fuel + depth items i)
    (j : ℕ) :
    j ∈ flattenTree (buildNodeS items fuel i) ↔ (isAnc items i j ∧ j < items.length) := by
  constructor
  · intro h
    by_contra hn
    have hc := (count_flattenTree_buildNodeS hA fuel i hi hfuel j).2 hn
    rw [List.count_eq_zero] at hc
    exact hc h
  · intro h
    have hc := (count_flattenTree_buildNodeS hA fuel i hi hfuel j).1 h
    rw [← List.count_pos_iff, hc]
    omega

/-- Every item of an acyclic collection has exactly one root ancestor,
and under `ClosedParents` that root carries no `parent_id` field. -/
theorem root_of_item {items : List ItemData} (hA : Acyclic items)
    (hC : ClosedParents items) {j : ℕ} (hj : j < items.length) :
    ∃ r, r ∈ sortedRootIdxs items ∧ isAnc items r j ∧
      ∀ b ∈ sortedRootIdxs items, isAnc items b j → b = r := by
  obtain ⟨r, hrj, hrn⟩ := root_ancestor_exists (hA j hj)
  have hrlt : r < items.length := isAnc_lt hrj hj
  have hrfield : (items.getD r default).parent_id = none :=
    field_none_of_parentIdx_none hC hrlt hrn
  refine ⟨r, mem_sortedRootIdxs.mpr ⟨hrlt, hrfield⟩, hrj, ?_⟩
  intro b hb hbj
  obtain ⟨hbn, hbfield⟩ := mem_sortedRootIdxs.mp hb
  refine isAnc_eq_of_depth hA hj hbj hrj ?_
  rw [depth_root (parentIdx_of_field_none hbfield), depth_root hrn]

/-- Each real index occurs exactly once in the flattening of the built
index forest; no other value occurs. -/
theorem count_flattenForest_buildTreeIdx {items : List ItemData} (hA : Acyclic items)
    (hC : ClosedParents items) (j : ℕ) :
    (j < items.length → (flattenForest (buildTreeIdx items)).count j = 1) ∧
    (items.length ≤ j → (flattenForest (buildTreeIdx items)).count j = 0) := by
  classical
  have hcount : (flattenForest (buildTreeIdx items)).count j
      = ((sortedRootIdxs items).map
          (fun r => if isAnc items r j ∧ j < items.length then (1 : ℕ) else 0)).sum := by
    rw [buildTreeIdx_eq, flattenForest, List.map_map, List.count_flatten, List.map_map]
    apply congrArg
    apply List.map_congr_left
    intro r hr
    obtain ⟨hrn, _⟩ := mem_sortedRootIdxs.mp hr
    have hinv : items.length ≤ items.length + depth items r := by omega
    by_cases hP : isAnc items r j ∧ j < items.length
    · rw [if_pos hP]
      exact (count_flattenTree_buildNodeS hA items.length r hrn hinv j).1 hP
    · rw [if_neg hP]
      exact (count_flattenTree_buildNodeS hA items.length r hrn hinv j).2 hP
  constructor
  · intro hj
    obtain ⟨r, hrmem, hrj, hruniq⟩ := root_of_item hA hC hj
    rw [hcount, sum_map_ite_one (nodup_sortedRootIdxs items) hrmem ⟨hrj, hj⟩]
    intro b hb hPb
    exact hruniq b hb hPb.1
  · intro hj
    rw [hcount, sum_map_ite_zero]
    intro b hb hPb
    omega

/-- The flattening of the built index forest is a permutation of the
index range of the input. -/
theorem flattenForest_buildTreeIdx_perm {items : List ItemData} (hA : Acyclic items)
    (hC : ClosedParents items) :
    (flattenForest (buildTreeIdx items)).Perm (List.range items.length) := by
  rw [List.perm_iff_count]
  intro a
  by_cases h : a < items.length
  · rw [(count_flattenForest_buildTreeIdx hA hC a).1 h,
      List.count_eq_one_of_mem (List.nodup_range _) (List.mem_range.mpr h)]
  · rw [(count_flattenForest_buildTreeIdx hA hC a).2 (by omega),
      List.count_eq_zero_of_not_mem (by rw [List.mem_range]; omega)]

/-- Flattening commutes with mapping over a tree. -/
theorem flattenTree_map {α β : Type} (f : α → β) :
    ∀ t : Tree α, flattenTree (Tree.map f t) = (flattenTree t).map f := by
  refine tree_ind ?_
  intro d cs ih
  rw [Tree.map_node, flattenTree_node, flattenTree_node, List.map_cons, List.map_flatten,
    List.map_map, List.map_map]
  apply congrArg
  apply congrArg
  apply List.map_congr_left
  intro c hc
  exact ih c hc

/-- Flattening commutes with mapping over a forest. -/
theorem flattenForest_map {α β : Type} (f : α → β) (ts : List (Tree α)) :
    flattenForest (ts.map (Tree.map f)) = (flattenForest ts).map f := by
  rw [flattenForest, flattenForest, List.map_map, List.map_flatten, List.map_map]
  apply congrArg
  apply List.map_congr_left
  intro t _
  exact flattenTree_map f t

/-- Looking every index of the range back up in the list recovers the
list. -/
theorem map_getD_range (items : List ItemData) :
    (List.range items.length).map (fun i => items.getD i default) = items := by
  apply List.ext_getElem
  · simp
  · intro k h1 h2
    simp only [List.getElem_map, List.getElem_range]
    exact List.getD_eq_getElem items default h2

/-! ## Positions in the pre-order output -/

theorem indexOf_append_left {α : Type} [DecidableEq α] {a : α} :
    ∀ {l1 : List α} (l2 : List α), a ∈ l1 → (l1 ++ l2).indexOf a = l1.indexOf a := by
  intro l1
  induction l1 with
  | nil => intro l2 h; cases h
  | cons x l ih =>
    intro l2 h
    by_cases hx : x = a
    · subst hx
      rw [List.cons_append, List.indexOf_cons_self, List.indexOf_cons_self]
    · rcases List.mem_cons.mp h with rfl | h2
      · exact absurd rfl hx
      · rw [List.cons_append, List.indexOf_cons_ne _ hx, List.indexOf_cons_ne _ hx,
          ih l2 h2]

/-- Transfer of a relative position inside one block of a flattened
block list: when `x` and `y` live in the block of `c` and in no other
block, their order inside that block is their order overall. -/
theorem indexOf_lt_in_blocks {cs : List ℕ} {bf : ℕ → List ℕ} {c : ℕ} (hnd : cs.Nodup)
    (hc : c ∈ cs) {x y : ℕ}
    (hx : x ∈ bf c) (hy : y ∈ bf c)
    (hxo : ∀ b ∈ cs, x ∈ bf b → b = c) (hyo : ∀ b ∈ cs, y ∈ bf b → b = c)
    (hlt : (bf c).indexOf x < (bf c).indexOf y) :
    ((cs.map bf).flatten).indexOf x < ((cs.map bf).flatten).indexOf y ∧
      x ∈ (cs.map bf).flatten ∧ y ∈ (cs.map bf).flatten := by
  obtain ⟨u, v, rfl⟩ := List.append_of_mem hc
  have hcu : c ∉ u := by
    intro hmem
    rw [List.nodup_append] at hnd
    exact hnd.2.2 hmem (List.mem_cons_self c v)
  have hpre : ∀ z : ℕ, (∀ b ∈ u ++ c :: v, z ∈ bf b → b = c) → z ∉ (u.map bf).flatten := by
    intro z hz hmem
    obtain ⟨l, hl, hzl⟩ := List.mem_flatten.mp hmem
    obtain ⟨b, hb, rfl⟩ := List.mem_map.mp hl
    have := hz b (by rw [List.mem_append]; exact Or.inl hb) hzl
    subst this
    exact hcu hb
  have hxpre := hpre x hxo
  have hypre := hpre y hyo
  rw [List.map_append, List.map_cons, List.flatten_append, List.flatten_cons]
  have hxin : x ∈ (u.map bf).flatten ++ bf c ++ ((v.map bf).flatten) := by
    rw [List.append_assoc]
    rw [List.mem_append]
    right
    rw [List.mem_append]
    exact Or.inl hx
  have hyin : y ∈ (u.map bf).flatten ++ bf c ++ ((v.map bf).flatten) := by
    rw [List.append_assoc]
    rw [List.mem_append]
    right
    rw [List.mem_append]
    exact Or.inl hy
  rw [← List.append_assoc] at *
  refine ⟨?_, hxin, hyin⟩
  rw [List.append_assoc, List.indexOf_append_of_not_mem hxpre,
    List.indexOf_append_of_not_mem hypre, indexOf_append_left _ hx,
    indexOf_append_left _ hy]
  omega

/-- In the flattening of the subtree rooted at `a`, a parent index `i`
is placed strictly before each of its child indices `j`, whenever `j`
belongs to that subtree. -/
theorem parent_before_child_in_node {items : List ItemData} (hA : Acyclic items) :
    ∀ fuel a, a < items.length → items.length ≤ fuel + depth items a →
      ∀ i j, parentIdx items j = some i → isAnc items a j → j ≠ a →
        i ∈ flattenTree (buildNodeS items fuel a) ∧
        j ∈ flattenTree (buildNodeS items fuel a) ∧
        (flattenTree (buildNodeS items fuel a)).indexOf i
          < (flattenTree (buildNodeS items fuel a)).indexOf j := by
  intro fuel
  induction fuel with
  | zero =>
    intro a ha hfuel
    have := depth_lt_length hA ha
    omega
  | succ fuel ih =>
    intro a ha hfuel i j hp hanc hja
    have hjn : j < items.length := by
      by_contra hge
      rw [parentIdx_of_ge (by omega)] at hp
      cases hp
    have hin : i < items.length := parentIdx_lt hp
    rw [buildNodeS_succ, flattenTree_node, List.map_map]
    by_cases hia : i = a
    · subst hia
      have hjc : j ∈ sortedChildIdxs items i := mem_sortedChildIdxs.mpr ⟨hjn, hp⟩
      have hdj : depth items j = depth items i + 1 := depth_parent hA hjn hp
      obtain ⟨rest, hrest⟩ := flattenTree_buildNodeS_head items fuel j
      have hjmem : j ∈ ((sortedChildIdxs items i).map
          (flattenTree ∘ buildNodeS items fuel)).flatten := by
        rw [List.mem_flatten]
        refine ⟨(flattenTree ∘ buildNodeS items fuel) j, List.mem_map_of_mem _ hjc, ?_⟩
        show j ∈ flattenTree (buildNodeS items fuel j)
        rw [hrest]
        exact List.mem_cons_self j rest
      refine ⟨List.mem_cons_self i _, List.mem_cons_of_mem i hjmem, ?_⟩
      rw [List.indexOf_cons_self, List.indexOf_cons_ne _ (Ne.symm hja)]
      omega
    · rcases isAnc_cases hanc with rfl | ⟨c, hcj, hcp⟩
      · exact absurd rfl (Ne.symm hja)
      · have hcn : c < items.length := isAnc_lt hcj hjn
        have hcjne : c ≠ j := by
          rintro rfl
          rw [hp] at hcp
          exact hia (Option.some_inj.mp hcp)
        have hanc_ij : isAnc items i j := isAnc_parent hp
        have hdj : depth items j = depth items i + 1 := depth_parent hA hjn hp
        have hdc : depth items c = depth items a + 1 := depth_parent hA hcn hcp
        -- the child of `a` on the chain of `j` is an ancestor of `i`
        have hci : isAnc items c i := by
          rcases isAnc_comparable hcj hanc_ij with h | h
          · exact h
          · -- `i` above `c`: then depth arithmetic forces `i = c`
            obtain ⟨k, hk⟩ := h
            have hdci := depth_iter hA hcn hk
            obtain ⟨k0, hk0⟩ := hcj
            have hk0pos : k0 ≠ 0 := by
              rintro rfl
              have hjc0 : j = c := by simpa using hk0
              exact hcjne hjc0.symm
            have hdjc := depth_iter hA hjn hk0
            have hkz : k = 0 := by omega
            subst hkz
            have : c = i := by simpa using hk
            subst this
            exact isAnc_refl items c
        have hji : j ≠ c := fun h => hcjne h.symm
        have hinv : items.length ≤ fuel + depth items c := by omega
        obtain ⟨hiB, hjB, hltB⟩ := ih c hcn hinv i j hp hcj hji
        have hcmem : c ∈ sortedChildIdxs items a := mem_sortedChildIdxs.mpr ⟨hcn, hcp⟩
        have huniq : ∀ z : ℕ, isAnc items c z → z < items.length →
            ∀ b ∈ sortedChildIdxs items a,
              z ∈ (flattenTree ∘ buildNodeS items fuel) b → b = c := by
          intro z hcz hzn b hb hzb
          obtain ⟨hbn, hbp⟩ := mem_sortedChildIdxs.mp hb
          have hbinv : items.length ≤ fuel + depth items b := by
            have := depth_parent hA hbn hbp
            omega
          have hbz := (mem_flattenTree_buildNodeS hA hbn hbinv z).mp hzb
          refine isAnc_eq_of_depth hA hzn hbz.1 hcz ?_
          rw [depth_parent hA hbn hbp, hdc]
        have hxmem : i ∈ (flattenTree ∘ buildNodeS items fuel) c := hiB
        have hymem : j ∈ (flattenTree ∘ buildNodeS items fuel) c := hjB
        obtain ⟨hblock, hiF, hjF⟩ :=
          indexOf_lt_in_blocks (nodup_sortedChildIdxs items a) hcmem hxmem hymem
            (huniq i hci hin) (huniq j hcj hjn) hltB
        refine ⟨List.mem_cons_of_mem a hiF, List.mem_cons_of_mem a hjF, ?_⟩
        rw [List.indexOf_cons_ne _ (fun h => hia h.symm),
          List.indexOf_cons_ne _ (fun h => hja h.symm)]
        exact Nat.succ_lt_succ hblock

/-- A list of block heads is a subsequence of the flattened blocks. -/
theorem heads_sublist : ∀ (cs : List ℕ) (bf : ℕ → List ℕ),
    (∀ c ∈ cs, ∃ r, bf c = c :: r) → cs.Sublist ((cs.map bf).flatten) := by
  intro cs
  induction cs with
  | nil => intro bf _; simp
  | cons c cs ih =>
    intro bf h
    obtain ⟨r, hr⟩ := h c (List.mem_cons_self c cs)
    rw [List.map_cons, List.flatten_cons, hr, List.cons_append]
    refine List.Sublist.cons₂ c ?_
    exact (ih bf (fun b hb => h b (List.mem_cons_of_mem c hb))).trans
      (List.sublist_append_right r _)

/-- A block of a flattened block list is a subsequence of the whole. -/
theorem block_sublist_flatten {cs : List ℕ} (bf : ℕ → List ℕ) {c : ℕ} (hc : c ∈ cs) :
    (bf c).Sublist ((cs.map bf).flatten) := by
  obtain ⟨u, v, rfl⟩ := List.append_of_mem hc
  rw [List.map_append, List.map_cons, List.flatten_append, List.flatten_cons]
  exact ((List.sublist_append_left (bf c) ((v.map bf).flatten)).trans
    (List.sublist_append_right ((u.map bf).flatten) _))

/-- Inside the flattening of the subtree rooted at `a`, the sorted
children list of every node of that subtree occurs as a subsequence
(children appear in sibling order). -/
theorem sortedChildIdxs_sublist_in_node {items : List ItemData} (hA : Acyclic items) :
    ∀ fuel a, a < items.length → items.length ≤ fuel + depth items a →
      ∀ i, i < items.length → isAnc items a i →
        (sortedChildIdxs items i).Sublist (flattenTree (buildNodeS items fuel a)) := by
  intro fuel
  induction fuel with
  | zero =>
    intro a ha hfuel
    have := depth_lt_length hA ha
    omega
  | succ fuel ih =>
    intro a ha hfuel i hi hanc
    rw [buildNodeS_succ, flattenTree_node, List.map_map]
    by_cases hia : i = a
    · subst hia
      refine List.Sublist.cons _ ?_
      apply heads_sublist
      intro c _
      exact flattenTree_buildNodeS_head items fuel c
    · rcases isAnc_cases hanc with rfl | ⟨c, hci, hcp⟩
      · exact absurd rfl hia
      · have hcn : c < items.length := isAnc_lt hci hi
        have hdc : depth items c = depth items a + 1 := depth_parent hA hcn hcp
        have hinv : items.length ≤ fuel + depth items c := by omega
        have hsub := ih c hcn hinv i hi hci
        have hcmem : c ∈ sortedChildIdxs items a := mem_sortedChildIdxs.mpr ⟨hcn, hcp⟩
        exact List.Sublist.cons a
          (hsub.trans (block_sublist_flatten (flattenTree ∘ buildNodeS items fuel) hcmem))

/-! ## Tree-assembly claims -/

/-- Counterexample to claim C1 as stated: the one-item collection whose
`parent_id` dangles is acyclic, yet `buildTree` followed by `flatten`
returns the empty sequence — the item is lost, so the output is not a
permutation (set equality fails). -/
theorem C1_counterexample :
    Acyclic [dangItem] ∧
    ¬ (flattenForest (buildTrainingTree [dangItem])).Perm [dangItem] := by
  constructor
  · decide
  · intro h
    have hl := h.length_eq
    have hempty : flattenForest (buildTrainingTree [dangItem]) = [] := by
      have hroot : rootIdxs [dangItem] = [] := by decide
      rw [buildTrainingTree, buildTreeIdx, rawForest, hroot, sortForest]
      simp [flattenForest]
    rw [hempty] at hl
    simp at hl

/-- Claim C1 amended: for an acyclic collection in which every present
`parent_id` resolves inside the collection, `buildTree` followed by
`flatten` yields every original item exactly once (the output is a
permutation of the input), and the flattening is a valid pre-order of
the built forest: at the level of item indices, a node is always placed
strictly before each of its children, and the sorted children list of
every node occurs in order as a subsequence of the output. -/
theorem C1_preorder_perm (items : List ItemData) (hC : ClosedParents items)
    (hA : Acyclic items) :
    (flattenForest (buildTrainingTree items)).Perm items ∧
    (∀ i j, parentIdx items j = some i →
      (flattenForest (buildTreeIdx items)).indexOf i
        < (flattenForest (buildTreeIdx items)).indexOf j) ∧
    (∀ i, i < items.length →
      (sortedChildIdxs items i).Sublist (flattenForest (buildTreeIdx items))) := by
  refine ⟨?_, ?_, ?_⟩
  · rw [buildTrainingTree, flattenForest_map]
    exact ((flattenForest_buildTreeIdx_perm hA hC).map _).trans
      (by rw [map_getD_range])
  · intro i j hp
    have hjn : j < items.length := by
      by_contra hge
      rw [parentIdx_of_ge (by omega)] at hp
      cases hp
    have hin : i < items.length := parentIdx_lt hp
    obtain ⟨r, hrmem, hri, hruniq⟩ := root_of_item hA hC hin
    have hrj : isAnc items r j := isAnc_trans (isAnc_parent hp) hri
    have hrn : r < items.length := (mem_sortedRootIdxs.mp hrmem).1
    have hjr : j ≠ r := by
      rintro rfl
      rw [parentIdx_of_field_none (mem_sortedRootIdxs.mp hrmem).2] at hp
      cases hp
    have hinv : items.length ≤ items.length + depth items r := by omega
    obtain ⟨hiB, hjB, hltB⟩ :=
      parent_before_child_in_node hA items.length r hrn hinv i j hp hrj hjr
    have huniq : ∀ z : ℕ, isAnc items r z → z < items.length →
        ∀ b ∈ sortedRootIdxs items,
          z ∈ (flattenTree ∘ buildNodeS items items.length) b → b = r := by
      intro z hrz hzn b hb hzb
      obtain ⟨hbn, hbf⟩ := mem_sortedRootIdxs.mp hb
      have hbz := (mem_flattenTree_buildNodeS hA hbn (by omega) z).mp hzb
      refine isAnc_eq_of_depth hA hzn hbz.1 hrz ?_
      rw [depth_root (parentIdx_of_field_none hbf),
        depth_root (parentIdx_of_field_none (mem_sortedRootIdxs.mp hrmem).2)]
    have hrij : isAnc items r j := hrj
    obtain ⟨hblock, _, _⟩ :=
      indexOf_lt_in_blocks (nodup_sortedRootIdxs items) hrmem hiB hjB
        (huniq i hri hin) (huniq j hrj hjn) hltB
    rw [buildTreeIdx_eq, flattenForest, List.map_map]
    exact hblock
  · intro i hi
    obtain ⟨r, hrmem, hri, _⟩ := root_of_item hA hC hi
    have hrn : r < items.length := (mem_sortedRootIdxs.mp hrmem).1
    have hsub := sortedChildIdxs_sublist_in_node hA items.length r hrn (by omega) i hi hri
    rw [buildTreeIdx_eq, flattenForest, List.map_map]
    exact hsub.trans
      (block_sublist_flatten (flattenTree ∘ buildNodeS items items.length) hrmem)

/-- Witness for C1 on a concrete four-item collection given in
scrambled order. -/
theorem C1_witness :
    (flattenForest (buildTrainingTree exTree)).Perm exTree :=
  (C1_preorder_perm exTree (by decide) (by decide)).1

/-- Every index in the flattening of a built subtree is the subtree's
root or has a resolvable parent. -/
theorem mem_flattenTree_buildNodeS_shape (items : List ItemData) :
    ∀ fuel i x, x ∈ flattenTree (buildNodeS items fuel i) →
      x = i ∨ ∃ p, parentIdx items x = some p := by
  intro fuel
  induction fuel with
  | zero =>
    intro i x hx
    simp at hx
    exact Or.inl hx
  | succ fuel ih =>
    intro i x hx
    rw [buildNodeS_succ, flattenTree_node, List.map_map] at hx
    rcases List.mem_cons.mp hx with rfl | hx2
    · exact Or.inl rfl
    · obtain ⟨l, hl, hxl⟩ := List.mem_flatten.mp hx2
      obtain ⟨c, hc, rfl⟩ := List.mem_map.mp hl
      obtain ⟨hcn, hcp⟩ := mem_sortedChildIdxs.mp hc
      rcases ih c x hxl with rfl | hp
      · exact Or.inr ⟨i, hcp⟩
      · exact Or.inr hp

/-- Counterexample to claim C2 as stated: the item whose `parent_id`
dangles is not returned as a root — `buildTree` returns the empty
forest, dropping the item entirely. -/
theorem C2_counterexample :
    dangItem.parent_id = some "missing" ∧
    (∀ it ∈ [dangItem], it.id ≠ "missing") ∧
    buildTrainingTree [dangItem] = [] := by
  refine ⟨rfl, by decide, ?_⟩
  have hroot : rootIdxs [dangItem] = [] := by decide
  rw [buildTrainingTree, buildTreeIdx, rawForest, hroot, sortForest]
  simp

/-- Claim C2 amended: an item whose `parent_id` refers to an identifier
carried by no item of the collection is dropped by `buildTree`: its
index appears nowhere in the returned forest — neither as a root nor
attached to any node. -/
theorem C2_dangling_dropped (items : List ItemData) (j : ℕ) (_hj : j < items.length)
    (p : String) (hp : (items.getD j default).parent_id = some p)
    (hnone : ∀ it ∈ items, it.id ≠ p) :
    j ∉ flattenForest (buildTreeIdx items) := by
  have hpid : parentIdx items j = none := by
    rw [parentIdx, hp, Option.some_bind]
    cases hr : resolveLast items p with
    | none => rfl
    | some x =>
      have hid := resolveLast_id hr
      have hlt := resolveLast_lt hr
      have hmem : items.getD x default ∈ items := by
        rw [List.getD_eq_getElem _ _ hlt]
        exact List.getElem_mem hlt
      exact absurd hid (hnone _ hmem)
  intro hmem
  rw [buildTreeIdx_eq, flattenForest, List.map_map] at hmem
  obtain ⟨l, hl, hjl⟩ := List.mem_flatten.mp hmem
  obtain ⟨r, hr, rfl⟩ := List.mem_map.mp hl
  rcases mem_flattenTree_buildNodeS_shape items items.length r j hjl with rfl | ⟨q, hq⟩
  · exact absurd (mem_sortedRootIdxs.mp hr).2 (by rw [hp]; intro h; cases h)
  · rw [hpid] at hq
    cases hq

/-- Witness for C2: the dangling item of the two-item collection
`[dangItem, tRoot]` is absent from the built forest. -/
theorem C2_witness : (0 : ℕ) ∉ flattenForest (buildTreeIdx [dangItem, tRoot]) :=
  C2_dangling_dropped [dangItem, tRoot] 0 (by norm_num) "missing" rfl (by decide)

/-! ## Sorting claim -/

/-- The ordering key survives the final lookup of indices. -/
theorem data_map_order (items : List ItemData) (t : Tree ℕ) :
    (Tree.map (fun i => items.getD i default) t).data.order_index = treeOrder items t := by
  cases t with
  | node i cs => rw [Tree.map_node, treeOrder, Tree.data]

/-- Every tree obtained by sorting and looking up indices has every
sibling list sorted by `order_index`, recursively. -/
theorem treeLe_trans (items : List ItemData) : ∀ a b c : Tree ℕ,
    treeLe items a b = true → treeLe items b c = true → treeLe items a c = true := by
  intro a b c hab hbc
  rw [treeLe, decide_eq_true_iff] at *
  exact le_trans hab hbc

theorem treeLe_total (items : List ItemData) : ∀ a b : Tree ℕ,
    (treeLe items a b || treeLe items b a) = true := by
  intro a b
  rw [Bool.or_eq_true, treeLe, treeLe, decide_eq_true_iff, decide_eq_true_iff]
  exact le_total _ _

/-- The result of `sortItems` on any sibling list, looked back up to
item records, is sorted ascending by `order_index`. -/
theorem sortForest_map_pairwise (items : List ItemData) (ts : List (Tree ℕ)) :
    List.Pairwise (fun a b : Tree ItemData => a.data.order_index ≤ b.data.order_index)
      ((sortForest items ts).map (Tree.map (fun i => items.getD i default))) := by
  have hpair := @List.sorted_mergeSort _ (treeLe items) (treeLe_trans items)
    (treeLe_total items) (ts.map (sortTree items))
  rw [sortForest]
  refine List.Pairwise.map _ ?_ hpair
  intro a b hab
  rw [treeLe, decide_eq_true_iff] at hab
  rw [data_map_order, data_map_order]
  exact hab

theorem childrenSorted_map_sortTree (items : List ItemData) :
    ∀ t : Tree ℕ,
      ChildrenSorted (Tree.map (fun i => items.getD i default) (sortTree items t)) := by
  refine tree_ind ?_
  intro i cs ih
  rw [sortTree_node, Tree.map_node]
  refine ChildrenSorted.node _ _ ?_ ?_
  · intro c hc
    obtain ⟨s, hs, rfl⟩ := List.mem_map.mp hc
    rw [sortForest, List.mem_mergeSort] at hs
    obtain ⟨c0, hc0, rfl⟩ := List.mem_map.mp hs
    exact ih c0 hc0
  · exact sortForest_map_pairwise items cs

/-- Claim C3: in the forest returned by `buildTree`, every sibling list
is sorted ascending by `order_index` — the returned root list itself,
and, recursively, the children list of every node at every depth. -/
theorem C3_children_sorted (items : List ItemData) :
    List.Pairwise (fun a b : Tree ItemData => a.data.order_index ≤ b.data.order_index)
      (buildTrainingTree items) ∧
    ∀ t ∈ buildTrainingTree items, ChildrenSorted t := by
  constructor
  · rw [buildTrainingTree, buildTreeIdx]
    exact sortForest_map_pairwise items (rawForest items)
  · intro t ht
    rw [buildTrainingTree] at ht
    obtain ⟨s, hs, rfl⟩ := List.mem_map.mp ht
    rw [buildTreeIdx, sortForest, List.mem_mergeSort] at hs
    obtain ⟨u, hu, rfl⟩ := List.mem_map.mp hs
    exact childrenSorted_map_sortTree items u

/-- Witness for C3 at a singleton collection: the root list is sorted
and its tree is recursively sorted. -/
theorem C3_witness :
    List.Pairwise (fun a b : Tree ItemData => a.data.order_index ≤ b.data.order_index)
      (buildTrainingTree [tRoot]) ∧
    ChildrenSorted (Tree.node tRoot []) := by
  refine ⟨(C3_children_sorted [tRoot]).1, ?_⟩
  refine (C3_children_sorted [tRoot]).2 (Tree.node tRoot []) ?_
  have hroot : rootIdxs [tRoot] = [0] := by decide
  have hchild : childIdxs [tRoot] 0 = [] := by decide
  rw [buildTrainingTree, buildTreeIdx, rawForest, hroot, sortForest]
  show Tree.node tRoot [] ∈
    (([buildNode [tRoot] 1 0].map (sortTree [tRoot])).mergeSort
      (treeLe [tRoot])).map (Tree.map fun i => [tRoot].getD i default)
  have hb : buildNode [tRoot] 1 0 = Tree.node 0 [] := by
    show Tree.node 0 ((childIdxs [tRoot] 0).map (buildNode [tRoot] 0)) = _
    rw [hchild]
    rfl
  rw [hb, List.map_cons, List.map_nil, sortTree_node, sortForest, List.map_nil,
    List.mergeSort_nil, List.mergeSort_singleton, List.map_cons, Tree.map_node]
  simp

/-! ## Aggregation claims -/

/-- Claim C4: for every node, `getOverallProgress` returns the node's
own `progress_percentage` when it has no children, and otherwise the
unweighted mean `(self + sum of children's recursive overall progress)
/ (1 + childCount)`; in particular a node at 100 with two children at 0
and 50 yields `(100 + 0 + 50) / 3 = 50`. -/
theorem C4_getOverallProgress_spec :
    (∀ d : ItemData, getOverallProgress (.node d []) = d.progress_percentage) ∧
    (∀ (d : ItemData) (cs : List (Tree ItemData)), cs ≠ [] →
      getOverallProgress (.node d cs)
        = (d.progress_percentage + (cs.map getOverallProgress).sum) / (1 + cs.length)) ∧
    getOverallProgress
      (.node { id := "p", progress_percentage := 100 }
        [.node { id := "c1", progress_percentage := 0 } [],
         .node { id := "c2", progress_percentage := 50 } []]) = 50 := by
  refine ⟨fun d => by simp, fun d cs h => ?_, ?_⟩
  · rw [getOverallProgress_node, if_neg (by simpa [List.isEmpty_iff] using h)]
    ring_nf
  · norm_num [getOverallProgress_node]

/-- Witness for C4 at a node with one child. -/
theorem C4_witness :
    getOverallProgress (.node doneItem [.node freshItem []])
      = (doneItem.progress_percentage
          + ([Tree.node freshItem []].map getOverallProgress).sum) / (1 + 1) := by
  have h := C4_getOverallProgress_spec.2.1 doneItem [.node freshItem []] (by simp)
  simp at h
  simp [h]

/-- Claim C10 (implicit): an input record with `estimated_duration_minutes`
equal to 0 or absent constructs an item with 30 minutes — a zero-duration
item cannot be constructed — so `getTotalEstimatedTime` counts 30 minutes
for the node built from such a record. -/
theorem C10_constructor_duration (freshId : String) (now : ℚ) (data : ItemDataInput)
    (cs : List (Tree ItemData)) :
    ((data.estimated_duration_minutes = none ∨ data.estimated_duration_minutes = some 0) →
      (TrainingItem_new freshId now data).estimated_duration_minutes = 30 ∧
      getTotalEstimatedTime (.node (TrainingItem_new freshId now data) cs)
        = 30 + (cs.map getTotalEstimatedTime).sum) ∧
    (TrainingItem_new freshId now data).estimated_duration_minutes ≠ 0 := by
  constructor
  · intro h
    have h30 : (TrainingItem_new freshId now data).estimated_duration_minutes = 30 := by
      rcases h with h | h <;> simp [TrainingItem_new, h]
    exact ⟨h30, by rw [getTotalEstimatedTime_node, h30]⟩
  · rcases hd : data.estimated_duration_minutes with _ | v
    · simp [TrainingItem_new, hd]
    · by_cases hv : v = 0 <;> simp [TrainingItem_new, hd, hv]

/-- Witness for C10 at a record that explicitly passes 0 minutes. -/
theorem C10_witness :
    (TrainingItem_new "f" 0 { estimated_duration_minutes := some 0 }).estimated_duration_minutes
      = 30 :=
  ((C10_constructor_duration "f" 0 { estimated_duration_minutes := some 0 } []).1
    (Or.inr rfl)).1

/-! ## Progress-update claims -/

/-- The stored percentage after `TrainingService.updateProgress` is the
clamp of the input into [0,100]. -/
theorem service_updateProgress_percentage (item : ItemData) (p now : ℚ) :
    (service_updateProgress item p now).progress_percentage = max 0 (min 100 p) := by
  unfold service_updateProgress
  split_ifs <;> rfl

/-- `TrainingService.updateProgress` always stamps `last_practiced_at`. -/
theorem service_updateProgress_last_practiced (item : ItemData) (p now : ℚ) :
    (service_updateProgress item p now).last_practiced_at = some now := by
  unfold service_updateProgress
  split_ifs <;> rfl

/-- Claim C5: `updateProgress` stores the clamped percentage and stamps
`last_practiced_at`; an input of at least 100 yields status `completed`
with `completed_at` stamped; in particular 150 clamps to 100 with
status `completed`, while 0 on a `not_started` item leaves the status
`not_started` (0 is not `> 0`).  The last conjunct records the same
boundary for the model method `TrainingItem.updateProgress`. -/
theorem C5_updateProgress_spec (item : ItemData) (p now : ℚ) :
    (service_updateProgress item p now).progress_percentage = max 0 (min 100 p) ∧
    (service_updateProgress item p now).last_practiced_at = some now ∧
    (p ≥ 100 → (service_updateProgress item p now).status = .completed ∧
      (service_updateProgress item p now).completed_at = some now) ∧
    (service_updateProgress item 150 now).progress_percentage = 100 ∧
    (service_updateProgress item 150 now).status = .completed ∧
    (service_updateProgress item 150 now).completed_at = some now ∧
    (item.status = .not_started → (service_updateProgress item 0 now).status = .not_started) ∧
    (item.status = .not_started →
      (TrainingItem_updateProgress item 0 now).status = .not_started) := by
  have h150 : (150 : ℚ) ≥ 100 := by norm_num
  have hclamp : max 0 (min 100 (150 : ℚ)) = 100 := by norm_num
  have hge : ∀ q : ℚ, q ≥ 100 →
      (service_updateProgress item q now).status = .completed ∧
      (service_updateProgress item q now).completed_at = some now := by
    intro q hq
    unfold service_updateProgress
    rw [if_pos hq]
    exact ⟨rfl, rfl⟩
  refine ⟨service_updateProgress_percentage item p now,
    service_updateProgress_last_practiced item p now, hge p, ?_, (hge 150 h150).1,
    (hge 150 h150).2, ?_, ?_⟩
  · rw [service_updateProgress_percentage, hclamp]
  · intro hs
    unfold service_updateProgress
    norm_num [hs]
  · intro hs
    unfold TrainingItem_updateProgress
    norm_num [hs]

/-- Witness for C5: a saturating update and a zero update on a fresh
item. -/
theorem C5_witness :
    (service_updateProgress freshItem 150 3).progress_percentage = 100 ∧
    (service_updateProgress freshItem 150 3).status = .completed ∧
    (service_updateProgress freshItem 150 3).completed_at = some 3 ∧
    (service_updateProgress freshItem 0 3).status = .not_started :=
  ⟨(C5_updateProgress_spec freshItem 150 3).2.2.2.1,
   (C5_updateProgress_spec freshItem 150 3).2.2.2.2.1,
   (C5_updateProgress_spec freshItem 150 3).2.2.2.2.2.1,
   (C5_updateProgress_spec freshItem 150 3).2.2.2.2.2.2.1 rfl⟩

/-- Counterexample to claim C6 as stated: the claim covers the cited
`TrainingService.updateProgress`, but that function sets a completed
item at percentage 50 to `in_progress` — the status field changes. -/
theorem C6_counterexample :
    doneItem.status ≠ .not_started ∧ (0 : ℚ) < 50 ∧ (50 : ℚ) < 100 ∧
    (service_updateProgress doneItem 50 7).status ≠ doneItem.status := by
  refine ⟨by decide, by norm_num, by norm_num, ?_⟩
  unfold service_updateProgress
  norm_num [doneItem]
  decide

/-- Claim C6 amended: the model method `TrainingItem.updateProgress`
leaves the status unchanged for a percentage strictly between 0 and 100
whenever the status is not `not_started` (so lowering progress from 100
does not revert a completed item there), while the cited
`TrainingService.updateProgress` instead forces `in_progress` for every
such percentage, whatever the current status. -/
theorem C6_amended (item : ItemData) (p now : ℚ) :
    (item.status ≠ .not_started → 0 < p → p < 100 →
      (TrainingItem_updateProgress item p now).status = item.status) ∧
    (0 < p → p < 100 → (service_updateProgress item p now).status = .in_progress) := by
  constructor
  · intro hs h0 h100
    unfold TrainingItem_updateProgress
    rw [if_neg, if_neg]
    · intro hcon
      exact hs hcon.2
    · intro hcon
      exact absurd hcon.1 (not_le.mpr h100)
  · intro h0 h100
    unfold service_updateProgress
    rw [if_neg (not_le.mpr h100), if_pos h0]

/-- Witness for C6: the completed item keeps its status under the model
method at percentage 50. -/
theorem C6_witness :
    (TrainingItem_updateProgress doneItem 50 7).status = doneItem.status ∧
    (service_updateProgress doneItem 50 7).status = .in_progress :=
  ⟨(C6_amended doneItem 50 7).1 (by decide) (by norm_num) (by norm_num),
   (C6_amended doneItem 50 7).2 (by norm_num) (by norm_num)⟩

/-! ## Move claims -/

/-- Counterexample to claim C7 as stated: moving `rootP` under its own
descendant `childQ` through the cited service operation raises nothing
and *does* mutate the record (`parent_id` changes), so the move is
neither rejected with an `InvalidMoveError` nor mutation-free. -/
theorem C7_counterexample :
    isDescendant [rootP, childQ] 1 0 = true ∧
    rootP.parent_id = none ∧
    (service_moveTrainingItem rootP (some "cq") 0 9).parent_id = some "cq" := by
  exact ⟨rfl, rfl, rfl⟩

/-- Claim C7 amended: no error is raised anywhere — the UI guard in
`onDrop` silently skips the service call for a self-drop or a drop onto
a descendant (so those gestures mutate nothing), while the service-level
`moveTrainingItem` itself validates nothing and applies the requested
update unconditionally, even when it would create a cycle. -/
theorem C7_amended :
    (∀ (items : List ItemData) (dragged target : ℕ),
      isDescendant items target dragged = true →
        onDropProceeds items dragged target = false) ∧
    (∀ (items : List ItemData) (d : ℕ), onDropProceeds items d d = false) ∧
    (∀ (item : ItemData) (pid : Option String) (oi t : ℚ),
      service_moveTrainingItem item pid oi t
        = { item with parent_id := pid, order_index := oi, updated_at := t }) := by
  refine ⟨fun items dragged target h => ?_, fun items d => ?_,
    fun item pid oi t => rfl⟩
  · simp [onDropProceeds, h]
  · simp [onDropProceeds]

/-- Witness for C7: the drop of `rootP` onto its descendant `childQ` is
silently skipped. -/
theorem C7_witness : onDropProceeds [rootP, childQ] 0 1 = false :=
  C7_amended.1 [rootP, childQ] 0 1 rfl

/-- Claim C8 evaluated on the code at the failing input: promoting
`movedC8` (level 1, with a child at level 2 in the collection) to a
root sets `parent_id` and `order_index` but leaves `level` at 1 — the
claim requires level 0 for a root and a cascaded recomputation of the
child's level, neither of which the source performs (no code path
touches `level` or any descendant). -/
theorem C8_code_eval :
    (service_moveTrainingItem movedC8 none 0 5).parent_id = none ∧
    (service_moveTrainingItem movedC8 none 0 5).order_index = 0 ∧
    (service_moveTrainingItem movedC8 none 0 5).level = 1 ∧
    (service_moveTrainingItem movedC8 none 0 5).level ≠ 0 := by
  refine ⟨rfl, rfl, rfl, by norm_num [service_moveTrainingItem, movedC8]⟩

/-! ## Statistics claims -/

/-- Counterexample to claim C9 as stated: on a forest of two leaves
with one completed item the code returns `completionRate = 50`, not the
claimed `completed / total = 1/2`. -/
theorem C9_counterexample :
    (getUserStats ex9).completedItems = 1 ∧
    (getUserStats ex9).totalItems = 2 ∧
    (getUserStats ex9).completionRate = 50 ∧
    (getUserStats ex9).completionRate
      ≠ ((getUserStats ex9).completedItems : ℚ) / ((getUserStats ex9).totalItems : ℚ) := by
  have hstats : getUserStats ex9 =
      { totalItems := 2, completedItems := 1, inProgressItems := 0,
        totalEstimatedHours := 1, hardSkillsCount := 2, softSkillsCount := 0,
        completionRate := 50 } := by
    simp [getUserStats, ex9, flattenForest, isCompleted, doneItem]
    norm_num
  rw [hstats]
  norm_num

/-- Claim C9 amended: `getUserStats` counts as completed exactly the
flattened items with status `completed` or percentage at least 100, and
returns `completionRate = (completed / total) * 100` (not the bare
ratio), with 0 — and all-zero counts — on an empty flattened forest. -/
theorem C9_amended (forest : List (Tree ItemData)) :
    (getUserStats forest).totalItems = (flattenForest forest).length ∧
    (getUserStats forest).completedItems
      = ((flattenForest forest).filter
          (fun d => decide (d.status = TrainingStatus.completed
            ∨ d.progress_percentage ≥ 100))).length ∧
    (getUserStats forest).completionRate
      = (if 0 < (flattenForest forest).length
         then (((getUserStats forest).completedItems : ℚ)
            / ((flattenForest forest).length : ℚ)) * 100
         else 0) ∧
    (flattenForest forest = [] →
      getUserStats forest
        = { totalItems := 0, completedItems := 0, inProgressItems := 0,
            totalEstimatedHours := 0, hardSkillsCount := 0, softSkillsCount := 0,
            completionRate := 0 }) := by
  refine ⟨rfl, rfl, rfl, fun h => ?_⟩
  simp [getUserStats, h]

/-- Witness for C9 on the empty forest: every count is zero and the
completion rate is 0 rather than a division error. -/
theorem C9_witness :
    getUserStats ([] : List (Tree ItemData))
      = { totalItems := 0, completedItems := 0, inProgressItems := 0,
          totalEstimatedHours := 0, hardSkillsCount := 0, softSkillsCount := 0,
          completionRate := 0 } :=
  (C9_amended []).2.2.2 rfl

end MicroLearning
